import Mathlib

/-!
# UniquePtr: an exclusive-ownership pointer

A shallow embedding of `UniquePtr/main.cpp`.

* A raw pointer `T*` is an `Option Nat`: `none` is `nullptr`, `some a` is the address `a`.
* The free store is a `Heap`: the objects that are currently allocated, and a log with one
  entry for every `delete` expression that was evaluated on a non-null pointer.  A referent
  that is deleted twice shows up twice in the log.
* A `UniquePtr<T>` object is a record with the one data member `m_ptr`.  The identity of an
  owner object (what `this` and `&other` compare) is a natural number, and a `World` maps the
  identities of the owner objects that are alive to their records.
* Every member function is a function on worlds that takes the identity `this` of the object it
  is called on.  It returns `none` when it is called on an object that is not alive (or, for
  the constructors, when the object to construct is alive already).
* `T` is plain data: destroying a `T` runs no code that touches an owner.
-/

/-- The raw pointer type `T*`: `none` is `nullptr`. -/
abbrev Ptr := Option Nat

/-- The class `UniquePtr<T>`: its only data member is `T* m_ptr`. -/
structure UniquePtr where
  m_ptr : Ptr
deriving DecidableEq, Repr

/-- The free store: `cells a` is the object allocated at address `a`, and `freed` logs the
addresses handed to `delete`, oldest first. -/
structure Heap (T : Type) where
  cells : Nat → Option T
  freed : List Nat

/-- The expression `delete p`: nothing for `nullptr`, otherwise the object at `p` is destroyed,
its storage is given back and the deallocation is logged. -/
def Heap.delete {T : Type} (h : Heap T) : Ptr → Heap T
  | none => h
  | some a => { cells := Function.update h.cells a none, freed := h.freed ++ [a] }

/-- The caller-side expression `new T(v)` when the allocator hands out address `a`. -/
def Heap.new {T : Type} (h : Heap T) (a : Nat) (v : T) : Heap T :=
  { h with cells := Function.update h.cells a (some v) }

/-- How many times the referent at address `r` has been deallocated. -/
def Heap.deallocCount {T : Type} (h : Heap T) (r : Nat) : Nat :=
  h.freed.count r

/-- A program state: the owner objects that are alive, by identity, and the free store. -/
structure World (T : Type) where
  owners : Nat → Option UniquePtr
  heap : Heap T

/-- The state with no owner object and nothing allocated. -/
def World.empty (T : Type) : World T :=
  { owners := fun _ => none, heap := { cells := fun _ => none, freed := [] } }

/-- Assignment to the data member `m_ptr` of the owner object `i`. -/
def World.setPtr {T : Type} (w : World T) (i : Nat) (p : Ptr) : World T :=
  { w with owners := Function.update w.owners i (some { m_ptr := p }) }

namespace UniquePtr

variable {T : Type}

/-- Source: `explicit UniquePtr(T* p = nullptr) noexcept : m_ptr(p) {}`. -/
def ctor (w : World T) (this : Nat) (p : Ptr) : Option (World T) :=
  match w.owners this with
  | some _ => none
  | none => some (w.setPtr this p)

/-- Source: `~UniquePtr() { delete m_ptr; }`, after which the object is gone. -/
def dtor (w : World T) (this : Nat) : Option (World T) :=
  match w.owners this with
  | none => none
  | some u =>
    some { owners := Function.update w.owners this none, heap := w.heap.delete u.m_ptr }

/-- Source: `UniquePtr(UniquePtr&& other) noexcept : m_ptr(other.m_ptr)
{ other.m_ptr = nullptr; }`. -/
def moveCtor (w : World T) (this other : Nat) : Option (World T) :=
  match w.owners this, w.owners other with
  | none, some o =>
    let w1 := w.setPtr this o.m_ptr
    some (w1.setPtr other none)
  | _, _ => none

/-- Source: `operator=(UniquePtr&& other)`:
`if (this != &other) { delete m_ptr; m_ptr = other.m_ptr; other.m_ptr = nullptr; }`. -/
def moveAssign (w : World T) (this other : Nat) : Option (World T) :=
  match w.owners this, w.owners other with
  | some t, some o =>
    if this ≠ other then
      let w1 : World T := { w with heap := w.heap.delete t.m_ptr }
      let w2 := w1.setPtr this o.m_ptr
      some (w2.setPtr other none)
    else
      some w
  | _, _ => none

/-- Source: `T& operator*() const { return *m_ptr; }`.  There is no object to return when
`m_ptr` is null or dangling. -/
def deref (w : World T) (this : Nat) : Option T :=
  match w.owners this with
  | none => none
  | some u =>
    match u.m_ptr with
    | none => none
    | some a => w.heap.cells a

/-- Source: `T* operator->() const { return m_ptr; }`. -/
def arrow (w : World T) (this : Nat) : Option Ptr :=
  match w.owners this with
  | none => none
  | some u => some u.m_ptr

/-- Source: `T* get() const noexcept { return m_ptr; }`. -/
def get (w : World T) (this : Nat) : Option Ptr :=
  match w.owners this with
  | none => none
  | some u => some u.m_ptr

/-- Source: `void reset(T* p = nullptr) noexcept { if (m_ptr != p) { delete m_ptr; m_ptr = p; } }`. -/
def reset (w : World T) (this : Nat) (p : Ptr) : Option (World T) :=
  match w.owners this with
  | none => none
  | some u =>
    if u.m_ptr ≠ p then
      let w1 : World T := { w with heap := w.heap.delete u.m_ptr }
      some (w1.setPtr this p)
    else
      some w

/-- Source: `T* release() noexcept { T* temp = m_ptr; m_ptr = nullptr; return temp; }`. -/
def release (w : World T) (this : Nat) : Option (Ptr × World T) :=
  match w.owners this with
  | none => none
  | some u =>
    let temp := u.m_ptr
    some (temp, w.setPtr this none)

end UniquePtr

/-- The struct `Foo` of the demonstration: `int x`. -/
structure Foo where
  x : Int
deriving DecidableEq, Repr

/-- One call of the interface of `UniquePtr`. -/
inductive Op where
  | ctor (this : Nat) (p : Ptr)
  | dtor (this : Nat)
  | moveCtor (this other : Nat)
  | moveAssign (this other : Nat)
  | deref (this : Nat)
  | arrow (this : Nat)
  | get (this : Nat)
  | reset (this : Nat) (p : Ptr)
  | release (this : Nat)
deriving DecidableEq, Repr

/-- The state after one call; the observers leave the state as it is and the pointer that
`release` returns is dropped. -/
def step {T : Type} (w : World T) : Op → Option (World T)
  | .ctor this p => UniquePtr.ctor w this p
  | .dtor this => UniquePtr.dtor w this
  | .moveCtor this other => UniquePtr.moveCtor w this other
  | .moveAssign this other => UniquePtr.moveAssign w this other
  | .deref this => (UniquePtr.deref w this).map (fun _ => w)
  | .arrow this => (UniquePtr.arrow w this).map (fun _ => w)
  | .get this => (UniquePtr.get w this).map (fun _ => w)
  | .reset this p => UniquePtr.reset w this p
  | .release this => (UniquePtr.release w this).map (fun r => r.2)

/-- The state after a sequence of calls, `none` as soon as one of them is not possible. -/
def run {T : Type} (w : World T) : List Op → Option (World T)
  | [] => some w
  | op :: ops => (step w op).bind (fun w1 => run w1 ops)

/-- The transfer operations: move construction and move assignment. -/
def Op.isTransfer : Op → Bool
  | .moveCtor _ _ => true
  | .moveAssign _ _ => true
  | _ => false

/-- Owner `i` is alive and its slot holds the referent at address `r`. -/
def Holds {T : Type} (w : World T) (i r : Nat) : Prop :=
  w.owners i = some { m_ptr := some r }

/-- Invariant I1: no two owner objects that are alive hold the same referent. -/
def NoAlias {T : Type} (w : World T) : Prop :=
  ∀ i j r, Holds w i r → Holds w j r → i = j

/-- No owner object that is alive holds the referent at address `r`. -/
def Unowned {T : Type} (w : World T) (r : Nat) : Prop :=
  ∀ i, ¬ Holds w i r

/-- The step from heap `h` to heap `h1` deallocates the referent of `q` once and nothing else:
the log gains the one entry `q` (no entry for `nullptr`), the object at `q` is gone and every
other cell is as before. -/
def DeallocatesOnly {T : Type} (h h1 : Heap T) (q : Ptr) : Prop :=
  h1.freed = h.freed ++ q.toList ∧
  (∀ x, h1.deallocCount x = h.deallocCount x + (if q = some x then 1 else 0)) ∧
  (∀ x, h1.cells x = if q = some x then none else h.cells x)

/-- The state of `main` just before `ptr3 = std::move(ptr2)`: `ptr1`, `ptr2`, `ptr3` are the
owner objects 1, 2, 3, and `new Foo(42)`, `new Foo(43)` return the addresses `a42`, `a43`. -/
def mainBeforeAssign (a42 a43 : Nat) : Option (World Foo) :=
  let w0 := World.empty Foo
  let w1 : World Foo := { w0 with heap := w0.heap.new a42 { x := 42 } }
  (UniquePtr.ctor w1 1 (some a42)).bind fun w2 =>
  (UniquePtr.moveCtor w2 2 1).bind fun w3 =>
  let w4 : World Foo := { w3 with heap := w3.heap.new a43 { x := 43 } }
  UniquePtr.ctor w4 3 (some a43)

/-- The demonstration `main`: the state when it returns, after the locals `ptr3`, `ptr2`,
`ptr1` have been destroyed in that order. -/
def Demo.main (a42 a43 : Nat) : Option (World Foo) :=
  (mainBeforeAssign a42 a43).bind fun w5 =>
  (UniquePtr.moveAssign w5 3 2).bind fun w6 =>
  run w6 [Op.dtor 3, Op.dtor 2, Op.dtor 1]

/-- A state with the single owner object 1, holding a `Foo` allocated at address 100. -/
def oneOwner : World Foo :=
  { owners := Function.update (fun _ => none) 1 (some { m_ptr := some 100 }),
    heap := { cells := Function.update (fun _ => none) 100 (some { x := 42 }), freed := [] } }

/-- The state of `main` before the move assignment when the allocator returns the addresses
100 and 101: `ptr1` is empty, `ptr2` holds `Foo(42)` at 100 and `ptr3` holds `Foo(43)` at 101. -/
def mainWorld : World Foo :=
  (mainBeforeAssign 100 101).getD (World.empty Foo)

/-- The owner object a call is made on (`this`; for the constructors, the new object). -/
def Op.target : Op → Nat
  | .ctor this _ => this
  | .dtor this => this
  | .moveCtor this _ => this
  | .moveAssign this _ => this
  | .deref this => this
  | .arrow this => this
  | .get this => this
  | .reset this _ => this
  | .release this => this

/-- The call passes the raw pointer to address `r` in: `UniquePtr(p)` or `reset(p)` with
`p` the address `r`. -/
def Op.supplies (r : Nat) : Op → Bool
  | .ctor _ p => decide (p = some r)
  | .reset _ p => decide (p = some r)
  | _ => false

/-- The referent at `r` is accounted for exactly once on top of `n` earlier deallocations:
either its deallocation count is still `n` and exactly one owner holds it, or the count is
`n + 1` and no owner holds it. -/
def OwnedOnce {T : Type} (n : Nat) (w : World T) (r : Nat) : Prop :=
  (w.heap.deallocCount r = n ∧ ∃ i, Holds w i r ∧ ∀ j, Holds w j r → j = i) ∨
  (w.heap.deallocCount r = n + 1 ∧ Unowned w r)

/-- A state in which the only owner object is 3 (`ptr3`, holding the `Foo(43)` at 101) and a
`Foo(42)` has just been allocated at address 100 and is not yet bound to an owner. -/
def freshReferent : World Foo :=
  { owners := Function.update (fun _ => none) 3 (some { m_ptr := some 101 }),
    heap := ((World.empty Foo).heap.new 101 { x := 43 }).new 100 { x := 42 } }

/-- The life of the referent at 100 from `freshReferent`: it is bound to owner 1, moved into
the new owner 2, move-assigned to owner 3, and then all three owners are destroyed. -/
def lifeOfReferent : List Op :=
  Op.ctor 1 (some 100) ::
    ([Op.moveCtor 2 1, Op.moveAssign 3 2] ++ List.map Op.dtor [3, 2, 1])

/-- The state at the end of `lifeOfReferent`. -/
def afterLife : World Foo :=
  (run freshReferent lifeOfReferent).getD (World.empty Foo)

/-- A state with two owner objects: owner 1 holds the `Foo(42)` at 100 and owner 2 the
`Foo(43)` at 101. -/
def twoOwners : World Foo :=
  World.setPtr { oneOwner with heap := oneOwner.heap.new 101 { x := 43 } } 2 (some 101)

/-- The composite `dst.reset(src.release())`: first `src.release()`, then `dst.reset` with
the pointer that the release returned. -/
def resetOfRelease {T : Type} (w : World T) (dst src : Nat) : Option (World T) :=
  (UniquePtr.release w src).bind fun res => UniquePtr.reset res.2 dst res.1

/-- A state that breaks I1: owners 1 and 2 both hold the `Foo(42)` at 100. -/
def aliased : World Foo :=
  oneOwner.setPtr 2 (some 100)

/-- The state after the raw pointer that owner 1 of `oneOwner` holds has been bound to a
second owner by the constructor and both owners have been destroyed. -/
def afterDoubleBind : World Foo :=
  (run oneOwner (Op.ctor 2 (some 100) :: ([] ++ List.map Op.dtor [2, 1]))).getD
    (World.empty Foo)

/-! ## Helper lemmas -/

theorem Heap.delete_deallocatesOnly {T : Type} (h : Heap T) (q : Ptr) :
    DeallocatesOnly h (h.delete q) q := by
  cases q with
  | none => simp [DeallocatesOnly, Heap.delete]
  | some a =>
    refine ⟨by simp [Heap.delete], ?_, ?_⟩
    · intro x
      by_cases hx : a = x
      · simp [Heap.delete, Heap.deallocCount, hx]
      · simp [Heap.delete, Heap.deallocCount, hx, List.count_singleton]
    · intro x
      by_cases hx : a = x
      · simp [Heap.delete, hx]
      · have hx1 : x ≠ a := fun e => hx e.symm
        simp [Heap.delete, hx, Function.update_noteq hx1]

theorem UniquePtr.moveCtor_eq {T : Type} (w : World T) (this other : Nat) (p : Ptr)
    (ht : w.owners this = none) (ho : w.owners other = some { m_ptr := p }) :
    UniquePtr.moveCtor w this other = some ((w.setPtr this p).setPtr other none) := by
  simp [UniquePtr.moveCtor, ht, ho]

theorem UniquePtr.moveAssign_eq {T : Type} (w : World T) (this other : Nat) (q p : Ptr)
    (ht : w.owners this = some { m_ptr := q }) (ho : w.owners other = some { m_ptr := p })
    (hne : this ≠ other) :
    UniquePtr.moveAssign w this other =
      some ((World.setPtr { w with heap := w.heap.delete q } this p).setPtr other none) := by
  simp [UniquePtr.moveAssign, ht, ho, hne]

theorem UniquePtr.moveAssign_self {T : Type} (w : World T) (this : Nat) (q : Ptr)
    (ht : w.owners this = some { m_ptr := q }) :
    UniquePtr.moveAssign w this this = some w := by
  simp [UniquePtr.moveAssign, ht]

theorem UniquePtr.reset_eq {T : Type} (w : World T) (this : Nat) (q p : Ptr)
    (ht : w.owners this = some { m_ptr := q }) (hne : q ≠ p) :
    UniquePtr.reset w this p =
      some (World.setPtr { w with heap := w.heap.delete q } this p) := by
  simp [UniquePtr.reset, ht, hne]

theorem UniquePtr.reset_same {T : Type} (w : World T) (this : Nat) (q : Ptr)
    (ht : w.owners this = some { m_ptr := q }) :
    UniquePtr.reset w this q = some w := by
  simp [UniquePtr.reset, ht]

theorem UniquePtr.dtor_eq {T : Type} (w : World T) (this : Nat) (q : Ptr)
    (ht : w.owners this = some { m_ptr := q }) :
    UniquePtr.dtor w this =
      some { owners := Function.update w.owners this none, heap := w.heap.delete q } := by
  simp [UniquePtr.dtor, ht]

theorem UniquePtr.release_eq {T : Type} (w : World T) (this : Nat) (q : Ptr)
    (ht : w.owners this = some { m_ptr := q }) :
    UniquePtr.release w this = some (q, w.setPtr this none) := by
  simp [UniquePtr.release, ht]

theorem UniquePtr.ctor_eq {T : Type} (w : World T) (this : Nat) (p : Ptr)
    (ht : w.owners this = none) :
    UniquePtr.ctor w this p = some (w.setPtr this p) := by
  simp [UniquePtr.ctor, ht]

theorem holds_setPtr {T : Type} (w : World T) (i : Nat) (p : Ptr) (j r : Nat) :
    Holds (w.setPtr i p) j r ↔ (j = i ∧ p = some r) ∨ (j ≠ i ∧ Holds w j r) := by
  unfold Holds World.setPtr
  by_cases h : j = i
  · subst h
    simp
  · simp [h, Function.update_noteq h]

theorem holds_withHeap {T : Type} (w : World T) (h : Heap T) (j r : Nat) :
    Holds { w with heap := h } j r ↔ Holds w j r := Iff.rfl

theorem holds_erase {T : Type} (w : World T) (h : Heap T) (i j r : Nat) :
    Holds { owners := Function.update w.owners i none, heap := h } j r ↔
      j ≠ i ∧ Holds w j r := by
  unfold Holds
  by_cases hji : j = i
  · subst hji
    simp
  · simp [hji, Function.update_noteq hji]

theorem Heap.deallocCount_delete {T : Type} (h : Heap T) (q : Ptr) (r : Nat) :
    (h.delete q).deallocCount r = h.deallocCount r + (if q = some r then 1 else 0) :=
  (Heap.delete_deallocatesOnly h q).2.1 r

/-- What a call that succeeds does to the owners and to the deallocation count of a referent,
for move construction. -/
theorem moveCtor_effect {T : Type} (w w1 : World T) (this other : Nat)
    (hs : UniquePtr.moveCtor w this other = some w1) :
    ∃ p, w.owners this = none ∧ w.owners other = some { m_ptr := p } ∧
      w1 = (w.setPtr this p).setPtr other none := by
  unfold UniquePtr.moveCtor at hs
  cases ht : w.owners this with
  | some t => simp [ht] at hs
  | none =>
    cases ho : w.owners other with
    | none => simp [ht, ho] at hs
    | some o =>
      simp [ht, ho] at hs
      exact ⟨o.m_ptr, rfl, rfl, hs.symm⟩

theorem moveAssign_effect {T : Type} (w w1 : World T) (this other : Nat)
    (hs : UniquePtr.moveAssign w this other = some w1) :
    ∃ q p, w.owners this = some { m_ptr := q } ∧ w.owners other = some { m_ptr := p } ∧
      ((this = other ∧ w1 = w) ∨
       (this ≠ other ∧
        w1 = (World.setPtr { w with heap := w.heap.delete q } this p).setPtr other none)) := by
  unfold UniquePtr.moveAssign at hs
  cases ht : w.owners this with
  | none => simp [ht] at hs
  | some t =>
    cases ho : w.owners other with
    | none => simp [ht, ho] at hs
    | some o =>
      simp only [ht, ho] at hs
      refine ⟨t.m_ptr, o.m_ptr, rfl, rfl, ?_⟩
      by_cases hne : this = other
      · simp [hne] at hs
        exact Or.inl ⟨hne, hs.symm⟩
      · simp [hne] at hs
        exact Or.inr ⟨hne, hs.symm⟩

theorem dtor_effect {T : Type} (w w1 : World T) (this : Nat)
    (hs : UniquePtr.dtor w this = some w1) :
    ∃ q, w.owners this = some { m_ptr := q } ∧
      w1 = { owners := Function.update w.owners this none, heap := w.heap.delete q } := by
  unfold UniquePtr.dtor at hs
  cases ht : w.owners this with
  | none => simp [ht] at hs
  | some t =>
    simp [ht] at hs
    exact ⟨t.m_ptr, rfl, hs.symm⟩

theorem reset_effect {T : Type} (w w1 : World T) (this : Nat) (p : Ptr)
    (hs : UniquePtr.reset w this p = some w1) :
    ∃ q, w.owners this = some { m_ptr := q } ∧
      ((q = p ∧ w1 = w) ∨
       (q ≠ p ∧ w1 = World.setPtr { w with heap := w.heap.delete q } this p)) := by
  unfold UniquePtr.reset at hs
  cases ht : w.owners this with
  | none => simp [ht] at hs
  | some t =>
    simp only [ht] at hs
    refine ⟨t.m_ptr, rfl, ?_⟩
    by_cases hne : t.m_ptr = p
    · simp [hne] at hs
      exact Or.inl ⟨hne, hs.symm⟩
    · simp [hne] at hs
      exact Or.inr ⟨hne, hs.symm⟩

theorem release_effect {T : Type} (w : World T) (this : Nat) (res : Ptr × World T)
    (hs : UniquePtr.release w this = some res) :
    ∃ q, w.owners this = some { m_ptr := q } ∧ res = (q, w.setPtr this none) := by
  unfold UniquePtr.release at hs
  cases ht : w.owners this with
  | none => simp [ht] at hs
  | some t =>
    simp [ht] at hs
    exact ⟨t.m_ptr, rfl, hs.symm⟩

theorem ctor_effect {T : Type} (w w1 : World T) (this : Nat) (p : Ptr)
    (hs : UniquePtr.ctor w this p = some w1) :
    w.owners this = none ∧ w1 = w.setPtr this p := by
  unfold UniquePtr.ctor at hs
  cases ht : w.owners this with
  | some t => simp [ht] at hs
  | none =>
    simp [ht] at hs
    exact ⟨rfl, hs.symm⟩

theorem noAlias_setPtr {T : Type} (w : World T) (i : Nat) (p : Ptr) (h : NoAlias w)
    (hp : ∀ r j, p = some r → Holds w j r → j = i) : NoAlias (w.setPtr i p) := by
  intro a b r ha hb
  rw [holds_setPtr] at ha hb
  rcases ha with ⟨ha, hpa⟩ | ⟨ha, hha⟩ <;> rcases hb with ⟨hb, hpb⟩ | ⟨hb, hhb⟩
  · rw [ha, hb]
  · exact (hb (hp r b hpa hhb)).elim
  · exact (ha (hp r a hpb hha)).elim
  · exact h a b r hha hhb

theorem noAlias_move {T : Type} (w : World T) (hp : Heap T) (this other : Nat) (p : Ptr)
    (h : NoAlias w) (ho : w.owners other = some { m_ptr := p }) :
    NoAlias ((World.setPtr { w with heap := hp } this p).setPtr other none) := by
  have key : ∀ a r, Holds ((World.setPtr { w with heap := hp } this p).setPtr other none) a r →
      (a = this ∧ Holds w other r) ∨ (a ≠ this ∧ a ≠ other ∧ Holds w a r) := by
    intro a r ha
    rw [holds_setPtr, holds_setPtr, holds_withHeap] at ha
    rcases ha with ⟨_, hn⟩ | ⟨ha1, ⟨ha2, hpa⟩ | ⟨ha2, hha⟩⟩
    · cases hn
    · left
      refine ⟨ha2, ?_⟩
      unfold Holds
      rw [ho, hpa]
    · right
      exact ⟨ha2, ha1, hha⟩
  intro a b r ha hb
  rcases key a r ha with ⟨ha1, ha2⟩ | ⟨ha1, ha2, ha3⟩ <;>
    rcases key b r hb with ⟨hb1, hb2⟩ | ⟨hb1, hb2, hb3⟩
  · rw [ha1, hb1]
  · exact (hb2 (h b other r hb3 ha2)).elim
  · exact (ha2 (h a other r ha3 hb2)).elim
  · exact h a b r ha3 hb3

theorem noAlias_step_aux {T : Type} (w w1 : World T) (op : Op) (h : NoAlias w)
    (hs : step w op = some w1)
    (hraw : ∀ r j, op.supplies r = true → Holds w j r → j = op.target) : NoAlias w1 := by
  cases op with
  | ctor this p =>
    obtain ⟨_, rfl⟩ := ctor_effect w w1 this p hs
    exact noAlias_setPtr w this p h (fun r j hp hj => hraw r j (by simp [Op.supplies, hp]) hj)
  | dtor this =>
    obtain ⟨q, _, rfl⟩ := dtor_effect w w1 this hs
    intro a b r ha hb
    rw [holds_erase] at ha hb
    exact h a b r ha.2 hb.2
  | moveCtor this other =>
    obtain ⟨p, ht, ho, rfl⟩ := moveCtor_effect w w1 this other hs
    exact noAlias_move w w.heap this other p h ho
  | moveAssign this other =>
    obtain ⟨q, p, ht, ho, ⟨_, rfl⟩ | ⟨hne, rfl⟩⟩ := moveAssign_effect w w1 this other hs
    · exact h
    · exact noAlias_move w _ this other p h ho
  | deref this =>
    simp only [step, Option.map_eq_some'] at hs
    obtain ⟨_, _, rfl⟩ := hs
    exact h
  | arrow this =>
    simp only [step, Option.map_eq_some'] at hs
    obtain ⟨_, _, rfl⟩ := hs
    exact h
  | get this =>
    simp only [step, Option.map_eq_some'] at hs
    obtain ⟨_, _, rfl⟩ := hs
    exact h
  | reset this p =>
    obtain ⟨q, ht, ⟨_, rfl⟩ | ⟨hne, rfl⟩⟩ := reset_effect w w1 this p hs
    · exact h
    · exact noAlias_setPtr (T := T) { w with heap := w.heap.delete q } this p h
        (fun r j hp hj => hraw r j (by simp [Op.supplies, hp]) hj)
  | release this =>
    simp only [step, Option.map_eq_some'] at hs
    obtain ⟨res, hres, rfl⟩ := hs
    obtain ⟨q, ht, rfl⟩ := release_effect w this res hres
    exact noAlias_setPtr w this none h (fun r j hp _ => by cases hp)

theorem holds_move {T : Type} (w : World T) (hp : Heap T) (this other : Nat) (p : Ptr)
    (ho : w.owners other = some { m_ptr := p }) (hne : this ≠ other) (a r : Nat) :
    Holds ((World.setPtr { w with heap := hp } this p).setPtr other none) a r ↔
      (a = this ∧ Holds w other r) ∨ (a ≠ this ∧ a ≠ other ∧ Holds w a r) := by
  rw [holds_setPtr, holds_setPtr, holds_withHeap]
  constructor
  · rintro (⟨_, hn⟩ | ⟨ha1, ⟨ha2, hpa⟩ | ⟨ha2, hha⟩⟩)
    · cases hn
    · left
      refine ⟨ha2, ?_⟩
      unfold Holds
      rw [ho, hpa]
    · right
      exact ⟨ha2, ha1, hha⟩
  · rintro (⟨ha1, ha2⟩ | ⟨ha1, ha2, ha3⟩)
    · right
      refine ⟨by rw [ha1]; exact hne, Or.inl ⟨ha1, ?_⟩⟩
      unfold Holds at ha2
      rw [ho] at ha2
      injection ha2 with ha2
      injection ha2
    · right
      exact ⟨ha2, Or.inr ⟨ha1, ha3⟩⟩

theorem ownedOnce_move {T : Type} (w : World T) (hp : Heap T) (this other : Nat) (p : Ptr)
    (r n : Nat) (h : OwnedOnce n w r) (ho : w.owners other = some { m_ptr := p })
    (hne : this ≠ other)
    (hyes : Holds w this r → hp.deallocCount r = w.heap.deallocCount r + 1)
    (hno : ¬ Holds w this r → hp.deallocCount r = w.heap.deallocCount r) :
    OwnedOnce n ((World.setPtr { w with heap := hp } this p).setPtr other none) r := by
  have hheap : ((World.setPtr { w with heap := hp } this p).setPtr other none).heap = hp := rfl
  unfold OwnedOnce Unowned
  rw [hheap]
  simp only [holds_move w hp this other p ho hne]
  rcases h with ⟨hc, i, hi, huniq⟩ | ⟨hc, hun⟩
  · by_cases hq : Holds w this r
    · right
      have hti : this = i := huniq this hq
      refine ⟨by rw [hyes hq, hc], ?_⟩
      rintro a (⟨_, ha2⟩ | ⟨ha1, _, ha3⟩)
      · exact hne (hti.trans (huniq other ha2).symm)
      · exact ha1 ((huniq a ha3).trans hti.symm)
    · left
      refine ⟨by rw [hno hq, hc], ?_⟩
      by_cases hio : i = other
      · refine ⟨this, Or.inl ⟨rfl, hio ▸ hi⟩, ?_⟩
        rintro a (⟨ha1, _⟩ | ⟨_, ha2, ha3⟩)
        · exact ha1
        · exact (ha2 ((huniq a ha3).trans hio)).elim
      · have hit : i ≠ this := fun e => hq (e ▸ hi)
        refine ⟨i, Or.inr ⟨hit, hio, hi⟩, ?_⟩
        rintro a (⟨_, ha2⟩ | ⟨_, _, ha3⟩)
        · exact (hio (huniq other ha2).symm).elim
        · exact huniq a ha3
  · right
    refine ⟨by rw [hno (hun this), hc], ?_⟩
    rintro a (⟨_, ha2⟩ | ⟨_, _, ha3⟩)
    · exact hun other ha2
    · exact hun a ha3

theorem holds_iff_ptr {T : Type} (w : World T) (i : Nat) (q : Ptr) (r : Nat)
    (h : w.owners i = some { m_ptr := q }) : Holds w i r ↔ q = some r := by
  unfold Holds
  rw [h]
  constructor
  · intro e
    injection e with e
    injection e
  · intro e
    rw [e]

theorem ownedOnce_dtor {T : Type} (w : World T) (this : Nat) (q : Ptr) (r n : Nat)
    (h : OwnedOnce n w r) (ht : w.owners this = some { m_ptr := q }) :
    OwnedOnce n { owners := Function.update w.owners this none, heap := w.heap.delete q }
      r := by
  unfold OwnedOnce Unowned
  simp only [holds_erase, Heap.deallocCount_delete]
  have hq := holds_iff_ptr w this q r ht
  rcases h with ⟨hc, i, hi, huniq⟩ | ⟨hc, hun⟩
  · by_cases hqr : q = some r
    · right
      refine ⟨by simp [hqr, hc], ?_⟩
      rintro a ⟨ha1, ha2⟩
      exact ha1 ((huniq a ha2).trans (huniq this (hq.2 hqr)).symm)
    · left
      refine ⟨by simp [hqr, hc], i, ⟨fun e => hqr (hq.1 (e ▸ hi)), hi⟩, ?_⟩
      rintro a ⟨_, ha2⟩
      exact huniq a ha2
  · right
    have hqr : ¬ q = some r := fun e => hun this (hq.2 e)
    refine ⟨by simp [hqr, hc], ?_⟩
    rintro a ⟨_, ha2⟩
    exact hun a ha2

theorem ownedOnce_step {T : Type} (w w1 : World T) (op : Op) (r n : Nat)
    (h : OwnedOnce n w r)
    (hop : op.isTransfer = true ∨ ∃ i, op = Op.dtor i) (hs : step w op = some w1) :
    OwnedOnce n w1 r := by
  cases op with
  | dtor this =>
    obtain ⟨q, ht, rfl⟩ := dtor_effect w w1 this hs
    exact ownedOnce_dtor w this q r n h ht
  | moveCtor this other =>
    obtain ⟨p, ht, ho, rfl⟩ := moveCtor_effect w w1 this other hs
    have hne : this ≠ other := by
      intro e
      rw [e, ho] at ht
      cases ht
    have hnot : ¬ Holds w this r := by
      unfold Holds
      rw [ht]
      intro e
      cases e
    exact ownedOnce_move w w.heap this other p r n h ho hne (fun e => (hnot e).elim) (fun _ => rfl)
  | moveAssign this other =>
    obtain ⟨q, p, ht, ho, ⟨_, rfl⟩ | ⟨hne, rfl⟩⟩ := moveAssign_effect w w1 this other hs
    · exact h
    · have hq := holds_iff_ptr w this q r ht
      refine ownedOnce_move w _ this other p r n h ho hne ?_ ?_
      · intro e
        rw [Heap.deallocCount_delete, if_pos (hq.1 e)]
      · intro e
        rw [Heap.deallocCount_delete, if_neg (fun e1 => e (hq.2 e1))]
        rfl
  | ctor this p => rcases hop with hop | ⟨i, hop⟩ <;> simp [Op.isTransfer] at hop
  | deref this => rcases hop with hop | ⟨i, hop⟩ <;> simp [Op.isTransfer] at hop
  | arrow this => rcases hop with hop | ⟨i, hop⟩ <;> simp [Op.isTransfer] at hop
  | get this => rcases hop with hop | ⟨i, hop⟩ <;> simp [Op.isTransfer] at hop
  | reset this p => rcases hop with hop | ⟨i, hop⟩ <;> simp [Op.isTransfer] at hop
  | release this => rcases hop with hop | ⟨i, hop⟩ <;> simp [Op.isTransfer] at hop

theorem ownedOnce_run {T : Type} (ops : List Op) (w w1 : World T) (r n : Nat)
    (h : OwnedOnce n w r)
    (hop : ∀ op ∈ ops, op.isTransfer = true ∨ ∃ i, op = Op.dtor i)
    (hs : run w ops = some w1) : OwnedOnce n w1 r := by
  induction ops generalizing w with
  | nil =>
    simp only [run, Option.some.injEq] at hs
    exact hs ▸ h
  | cons op ops ih =>
    simp only [run, Option.bind_eq_some] at hs
    obtain ⟨w2, hw2, hrest⟩ := hs
    exact ih w2 (ownedOnce_step w w2 op r n h (hop op (List.mem_cons_self op ops)) hw2)
      (fun o ho => hop o (List.mem_cons_of_mem op ho)) hrest

theorem unowned_step {T : Type} (w w1 : World T) (op : Op) (r : Nat) (h : Unowned w r)
    (hs : step w op = some w1) (hraw : op.supplies r = false) :
    Unowned w1 r ∧ w1.heap.deallocCount r = w.heap.deallocCount r := by
  have hdel : ∀ i q, w.owners i = some { m_ptr := q } →
      (w.heap.delete q).deallocCount r = w.heap.deallocCount r := by
    intro i q hi
    have hq : ¬ q = some r := fun e => h i ((holds_iff_ptr w i q r hi).2 e)
    rw [Heap.deallocCount_delete, if_neg hq]
    rfl
  cases op with
  | ctor this p =>
    obtain ⟨_, rfl⟩ := ctor_effect w w1 this p hs
    have hp : ¬ p = some r := by simpa [Op.supplies] using hraw
    refine ⟨?_, rfl⟩
    intro a ha
    rw [holds_setPtr] at ha
    rcases ha with ⟨_, ha⟩ | ⟨_, ha⟩
    · exact hp ha
    · exact h a ha
  | dtor this =>
    obtain ⟨q, ht, rfl⟩ := dtor_effect w w1 this hs
    refine ⟨?_, hdel this q ht⟩
    intro a ha
    rw [holds_erase] at ha
    exact h a ha.2
  | moveCtor this other =>
    obtain ⟨p, ht, ho, rfl⟩ := moveCtor_effect w w1 this other hs
    have hne : this ≠ other := by
      intro e
      rw [e, ho] at ht
      cases ht
    refine ⟨?_, rfl⟩
    intro a ha
    rw [holds_move w w.heap this other p ho hne] at ha
    rcases ha with ⟨_, ha⟩ | ⟨_, _, ha⟩
    · exact h other ha
    · exact h a ha
  | moveAssign this other =>
    obtain ⟨q, p, ht, ho, ⟨_, rfl⟩ | ⟨hne, rfl⟩⟩ := moveAssign_effect w w1 this other hs
    · exact ⟨h, rfl⟩
    · refine ⟨?_, hdel this q ht⟩
      intro a ha
      rw [holds_move w _ this other p ho hne] at ha
      rcases ha with ⟨_, ha⟩ | ⟨_, _, ha⟩
      · exact h other ha
      · exact h a ha
  | deref this =>
    simp only [step, Option.map_eq_some'] at hs
    obtain ⟨_, _, rfl⟩ := hs
    exact ⟨h, rfl⟩
  | arrow this =>
    simp only [step, Option.map_eq_some'] at hs
    obtain ⟨_, _, rfl⟩ := hs
    exact ⟨h, rfl⟩
  | get this =>
    simp only [step, Option.map_eq_some'] at hs
    obtain ⟨_, _, rfl⟩ := hs
    exact ⟨h, rfl⟩
  | reset this p =>
    obtain ⟨q, ht, ⟨_, rfl⟩ | ⟨hne, rfl⟩⟩ := reset_effect w w1 this p hs
    · exact ⟨h, rfl⟩
    · have hp : ¬ p = some r := by simpa [Op.supplies] using hraw
      refine ⟨?_, hdel this q ht⟩
      intro a ha
      rw [holds_setPtr, holds_withHeap] at ha
      rcases ha with ⟨_, ha⟩ | ⟨_, ha⟩
      · exact hp ha
      · exact h a ha
  | release this =>
    simp only [step, Option.map_eq_some'] at hs
    obtain ⟨res, hres, rfl⟩ := hs
    obtain ⟨q, ht, rfl⟩ := release_effect w this res hres
    refine ⟨?_, rfl⟩
    intro a ha
    rw [holds_setPtr] at ha
    rcases ha with ⟨_, ha⟩ | ⟨_, ha⟩
    · cases ha
    · exact h a ha

theorem unowned_run {T : Type} (ops : List Op) (w w1 : World T) (r : Nat) (h : Unowned w r)
    (hraw : ∀ op ∈ ops, op.supplies r = false) (hs : run w ops = some w1) :
    Unowned w1 r ∧ w1.heap.deallocCount r = w.heap.deallocCount r := by
  induction ops generalizing w with
  | nil =>
    simp only [run, Option.some.injEq] at hs
    exact hs ▸ ⟨h, rfl⟩
  | cons op ops ih =>
    simp only [run, Option.bind_eq_some] at hs
    obtain ⟨w2, hw2, hrest⟩ := hs
    have h2 := unowned_step w w2 op r h hw2 (hraw op (List.mem_cons_self op ops))
    have h3 := ih w2 h2.1 (fun o ho => hraw o (List.mem_cons_of_mem op ho)) hrest
    exact ⟨h3.1, h3.2.trans h2.2⟩

theorem update_none_of_ne (f : Nat → Option UniquePtr) (a : Nat) (v : Option UniquePtr)
    (i : Nat) (h : i ≠ a) (hf : f i = none) : Function.update f a v i = none := by
  rw [Function.update_noteq h]
  exact hf

theorem holds_oneOwner (h : Heap Foo) (i r : Nat) :
    Holds { oneOwner with heap := h } i r ↔ i = 1 ∧ r = 100 := by
  unfold Holds oneOwner
  by_cases h1 : i = 1
  · subst h1
    simp
    exact eq_comm
  · simp [Function.update_noteq h1, h1]

theorem holds_twoOwners (i r : Nat) :
    Holds twoOwners i r ↔ (i = 1 ∧ r = 100) ∨ (i = 2 ∧ r = 101) := by
  unfold twoOwners
  rw [holds_setPtr, holds_oneOwner]
  constructor
  · rintro (⟨h2, hr⟩ | ⟨_, h⟩)
    · exact Or.inr ⟨h2, by injection hr with hr; exact hr.symm⟩
    · exact Or.inl h
  · rintro (⟨h1, hr⟩ | ⟨h2, hr⟩)
    · exact Or.inr ⟨by omega, h1, hr⟩
    · exact Or.inl ⟨h2, by rw [hr]⟩

theorem noAlias_oneOwner : NoAlias oneOwner := by
  intro i j r hi hj
  rw [holds_oneOwner oneOwner.heap] at hi hj
  rw [hi.1, hj.1]

theorem noAlias_twoOwners : NoAlias twoOwners := by
  intro i j r hi hj
  rw [holds_twoOwners] at hi hj
  omega

/-! ## The operations one by one -/

/-- C2 (transfer-construct, P2): when `a` is an owner that is alive, empty or not, and `b` is
the owner to construct, `b = transfer-construct(a)` succeeds, afterwards `a.get()` is empty,
`b.get()` is what `a` held, and the heap (allocated objects and deallocation log) is as
before. -/
theorem moveCtor_transfers {T : Type} (w : World T) (a b : Nat) (p : Ptr)
    (ha : w.owners a = some { m_ptr := p }) (hb : w.owners b = none) :
    ∃ w1, UniquePtr.moveCtor w b a = some w1 ∧
      UniquePtr.get w1 a = some none ∧ UniquePtr.get w1 b = some p ∧ w1.heap = w.heap := by
  have hne : b ≠ a := by
    intro e
    rw [e, ha] at hb
    cases hb
  refine ⟨_, UniquePtr.moveCtor_eq w b a p hb ha, ?_, ?_, ?_⟩
  · simp [UniquePtr.get, World.setPtr]
  · simp [UniquePtr.get, World.setPtr, Function.update_noteq hne]
  · simp [World.setPtr]

/-- Witness of C2 on the one-owner state: owner 2 is move-constructed from owner 1. -/
theorem moveCtor_transfers_witness :
    oneOwner.owners 1 = some { m_ptr := some 100 } ∧ oneOwner.owners 2 = none ∧
    ∃ w1, UniquePtr.moveCtor oneOwner 2 1 = some w1 ∧
      UniquePtr.get w1 1 = some none ∧ UniquePtr.get w1 2 = some (some 100) ∧
      w1.heap = oneOwner.heap :=
  ⟨by decide, by decide, moveCtor_transfers oneOwner 1 2 (some 100) (by decide) (by decide)⟩

/-- C3 (transfer-assign, P2): for two distinct owners that are alive, `b.transfer-assign(a)`
succeeds, afterwards `a.get()` is empty and `b.get()` is what `a` held before, whatever `b`
held. -/
theorem moveAssign_transfers {T : Type} (w : World T) (a b : Nat) (p q : Ptr)
    (ha : w.owners a = some { m_ptr := p }) (hb : w.owners b = some { m_ptr := q })
    (hne : b ≠ a) :
    ∃ w1, UniquePtr.moveAssign w b a = some w1 ∧
      UniquePtr.get w1 a = some none ∧ UniquePtr.get w1 b = some p := by
  refine ⟨_, UniquePtr.moveAssign_eq w b a q p hb ha hne, ?_, ?_⟩
  · simp [UniquePtr.get, World.setPtr]
  · simp [UniquePtr.get, World.setPtr, Function.update_noteq hne]

/-- Witness of C3 on the state of `main`: `ptr3 = std::move(ptr2)`. -/
theorem moveAssign_transfers_witness :
    mainWorld.owners 2 = some { m_ptr := some 100 } ∧
    mainWorld.owners 3 = some { m_ptr := some 101 } ∧ 3 ≠ 2 ∧
    ∃ w1, UniquePtr.moveAssign mainWorld 3 2 = some w1 ∧
      UniquePtr.get w1 2 = some none ∧ UniquePtr.get w1 3 = some (some 100) :=
  ⟨by decide, by decide, by decide,
    moveAssign_transfers mainWorld 2 3 (some 100) (some 101) (by decide) (by decide) (by decide)⟩

/-- C4 (transfer-assign deallocation): for distinct owners `c` (holding `q`, possibly empty)
and `b` (holding `r`, possibly empty, a different referent than `q`), `c.transfer-assign(b)`
succeeds, deallocates exactly the referent of `q` once (nothing when `c` was empty) and no
other referent; the referent of `r` is untouched, `c` now holds `r` and dereferencing `c`
gives the object that `b` pointed to. -/
theorem moveAssign_deallocates {T : Type} (w : World T) (c b : Nat) (q r : Ptr)
    (hc : w.owners c = some { m_ptr := q }) (hb : w.owners b = some { m_ptr := r })
    (hne : c ≠ b) (hqr : ∀ x, q = some x → r ≠ some x) :
    ∃ w1, UniquePtr.moveAssign w c b = some w1 ∧
      DeallocatesOnly w.heap w1.heap q ∧
      (∀ x, r = some x →
        w1.heap.cells x = w.heap.cells x ∧ w1.heap.deallocCount x = w.heap.deallocCount x) ∧
      UniquePtr.get w1 c = some r ∧
      UniquePtr.deref w1 c = UniquePtr.deref w b := by
  have hd := Heap.delete_deallocatesOnly w.heap q
  have hlive : ∀ x, r = some x →
      (w.heap.delete q).cells x = w.heap.cells x ∧
      (w.heap.delete q).deallocCount x = w.heap.deallocCount x := by
    intro x hx
    have hqx : ¬ q = some x := fun e => hqr x e hx
    exact ⟨by rw [hd.2.2 x, if_neg hqx], by rw [hd.2.1 x, if_neg hqx]; rfl⟩
  refine ⟨_, UniquePtr.moveAssign_eq w c b q r hc hb hne, hd, hlive, ?_, ?_⟩
  · simp [UniquePtr.get, World.setPtr, Function.update_noteq hne]
  · cases r with
    | none => simp [UniquePtr.deref, World.setPtr, Function.update_noteq hne, hb]
    | some x =>
      simp [UniquePtr.deref, World.setPtr, Function.update_noteq hne, hb, (hlive x rfl).1]

/-- Witness of C4, the scenario of `main`: `c` (owner 3) owns 43 at address 101, `b` (owner 2)
owns 42 at address 100; after `c = std::move(b)` the referent of `c` is 42 and the storage of
43 has been deallocated exactly once. -/
theorem moveAssign_deallocates_witness :
    UniquePtr.deref mainWorld 3 = some { x := 43 } ∧
    UniquePtr.deref mainWorld 2 = some { x := 42 } ∧
    mainWorld.heap.deallocCount 101 = 0 ∧
    ∃ w1, UniquePtr.moveAssign mainWorld 3 2 = some w1 ∧
      DeallocatesOnly mainWorld.heap w1.heap (some 101) ∧
      (∀ x, some 100 = some x →
        w1.heap.cells x = mainWorld.heap.cells x ∧
        w1.heap.deallocCount x = mainWorld.heap.deallocCount x) ∧
      UniquePtr.get w1 3 = some (some 100) ∧
      UniquePtr.deref w1 3 = UniquePtr.deref mainWorld 2 :=
  ⟨by decide, by decide, by decide,
    moveAssign_deallocates mainWorld 3 2 (some 101) (some 100) (by decide) (by decide)
      (by decide) (by decide)⟩

/-- C5 (self-transfer-assign, P3): for an owner `a` that is alive, empty or not,
`a.transfer-assign(a)` succeeds and changes nothing: the state after the call is the state
before it, so `a.get()` is as before and nothing is deallocated. -/
theorem moveAssign_self_noop {T : Type} (w : World T) (a : Nat) (p : Ptr)
    (ha : w.owners a = some { m_ptr := p }) :
    ∃ w1, UniquePtr.moveAssign w a a = some w1 ∧ w1 = w ∧
      UniquePtr.get w1 a = some p ∧ UniquePtr.get w a = some p ∧
      w1.heap.freed = w.heap.freed ∧ w1.heap.cells = w.heap.cells :=
  ⟨w, UniquePtr.moveAssign_self w a p ha, rfl, by simp [UniquePtr.get, ha],
    by simp [UniquePtr.get, ha], rfl, rfl⟩

/-- Witness of C5 on the one-owner state. -/
theorem moveAssign_self_noop_witness :
    oneOwner.owners 1 = some { m_ptr := some 100 } ∧
    ∃ w1, UniquePtr.moveAssign oneOwner 1 1 = some w1 ∧ w1 = oneOwner ∧
      UniquePtr.get w1 1 = some (some 100) ∧ UniquePtr.get oneOwner 1 = some (some 100) ∧
      w1.heap.freed = oneOwner.heap.freed ∧ w1.heap.cells = oneOwner.heap.cells :=
  ⟨by decide, moveAssign_self_noop oneOwner 1 (some 100) (by decide)⟩

/-- C6 (reset with a different pointer, P5): for an owner `a` holding `q` (possibly empty) and
a pointer `newRef` different from `q` (possibly empty), `a.reset(newRef)` succeeds,
deallocates the referent of `q` exactly once (nothing when `a` was empty) and nothing else,
and leaves `a.get() == newRef`. -/
theorem reset_different {T : Type} (w : World T) (a : Nat) (q newRef : Ptr)
    (ha : w.owners a = some { m_ptr := q }) (hne : newRef ≠ q) :
    ∃ w1, UniquePtr.reset w a newRef = some w1 ∧
      DeallocatesOnly w.heap w1.heap q ∧ UniquePtr.get w1 a = some newRef :=
  ⟨_, UniquePtr.reset_eq w a q newRef ha (fun e => hne e.symm),
    Heap.delete_deallocatesOnly w.heap q, by simp [UniquePtr.get, World.setPtr]⟩

/-- Witness of C6 on the one-owner state: `reset()` with the default argument `nullptr`. -/
theorem reset_different_witness :
    oneOwner.owners 1 = some { m_ptr := some 100 } ∧ (none : Ptr) ≠ some 100 ∧
    ∃ w1, UniquePtr.reset oneOwner 1 none = some w1 ∧
      DeallocatesOnly oneOwner.heap w1.heap (some 100) ∧ UniquePtr.get w1 1 = some none :=
  ⟨by decide, by decide, reset_different oneOwner 1 (some 100) none (by decide) (by decide)⟩

/-- C7 (reset with the same pointer, P4): for an owner `a` that is alive, empty or not,
`a.reset(a.get())` succeeds and changes nothing: nothing is deallocated and `a.get()` is as
before. -/
theorem reset_same_noop {T : Type} (w : World T) (a : Nat) (q : Ptr)
    (ha : UniquePtr.get w a = some q) :
    ∃ w1, UniquePtr.reset w a q = some w1 ∧ w1 = w ∧
      w1.heap.freed = w.heap.freed ∧ w1.heap.cells = w.heap.cells ∧
      UniquePtr.get w1 a = UniquePtr.get w a := by
  have ho : w.owners a = some { m_ptr := q } := by
    unfold UniquePtr.get at ha
    cases h : w.owners a with
    | none => simp [h] at ha
    | some u =>
      simp [h] at ha
      cases u
      simp_all
  exact ⟨w, UniquePtr.reset_same w a q ho, rfl, rfl, rfl, rfl⟩

/-- Witness of C7 on the one-owner state. -/
theorem reset_same_noop_witness :
    UniquePtr.get oneOwner 1 = some (some 100) ∧
    ∃ w1, UniquePtr.reset oneOwner 1 (some 100) = some w1 ∧ w1 = oneOwner ∧
      w1.heap.freed = oneOwner.heap.freed ∧ w1.heap.cells = oneOwner.heap.cells ∧
      UniquePtr.get w1 1 = UniquePtr.get oneOwner 1 :=
  ⟨by decide, reset_same_noop oneOwner 1 (some 100) (by decide)⟩

/-- C9 (destruct, I2): destroying an owner that is alive and holds `q` succeeds, ends the
life of the owner, deallocates the referent of `q` exactly once when `q` is non-empty and
nothing else; when the slot is empty the heap is left unchanged. -/
theorem dtor_deallocates {T : Type} (w : World T) (a : Nat) (q : Ptr)
    (ha : w.owners a = some { m_ptr := q }) :
    ∃ w1, UniquePtr.dtor w a = some w1 ∧ w1.owners a = none ∧
      DeallocatesOnly w.heap w1.heap q ∧ (q = none → w1.heap = w.heap) := by
  refine ⟨_, UniquePtr.dtor_eq w a q ha, by simp, Heap.delete_deallocatesOnly w.heap q, ?_⟩
  intro hq
  subst hq
  rfl

/-- Witness of C9 on the state of `main`: `ptr3`, which holds the `Foo` at 101, is
destroyed. -/
theorem dtor_deallocates_witness :
    mainWorld.owners 3 = some { m_ptr := some 101 } ∧
    ∃ w1, UniquePtr.dtor mainWorld 3 = some w1 ∧ w1.owners 3 = none ∧
      DeallocatesOnly mainWorld.heap w1.heap (some 101) ∧
      ((some 101 : Ptr) = none → w1.heap = mainWorld.heap) :=
  ⟨by decide, dtor_deallocates mainWorld 3 (some 101) (by decide)⟩

/-! ## Lifetimes and invariants -/

/-- C1 (single deallocation, P1), as amended: let `r` be a referent that no owner holds.
Bind it to a new owner with the constructor, run any finite sequence of transfer-constructs
and transfer-assigns, then destroy owners until none is alive.  If all these calls are
possible, `r` has been deallocated exactly once since the binding: not twice, and not zero
times. -/
theorem single_deallocation {T : Type} (w w1 : World T) (this r : Nat) (moves : List Op)
    (dead : List Nat) (hfresh : Unowned w r)
    (hmoves : ∀ op ∈ moves, op.isTransfer = true)
    (hrun : run w (Op.ctor this (some r) :: (moves ++ List.map Op.dtor dead)) = some w1)
    (hall : ∀ i, w1.owners i = none) :
    w1.heap.deallocCount r = w.heap.deallocCount r + 1 := by
  simp only [run, Option.bind_eq_some] at hrun
  obtain ⟨w0, hctor, hrest⟩ := hrun
  obtain ⟨hthis, rfl⟩ := ctor_effect w w0 this (some r) hctor
  have h0 : OwnedOnce (w.heap.deallocCount r) (w.setPtr this (some r)) r := by
    left
    refine ⟨rfl, this, (holds_setPtr w this (some r) this r).2 (Or.inl ⟨rfl, rfl⟩), ?_⟩
    intro j hj
    rw [holds_setPtr] at hj
    rcases hj with ⟨hj, _⟩ | ⟨_, hj⟩
    · exact hj
    · exact (hfresh j hj).elim
  have hops : ∀ op ∈ moves ++ List.map Op.dtor dead,
      op.isTransfer = true ∨ ∃ i, op = Op.dtor i := by
    intro op hop
    rcases List.mem_append.1 hop with hop | hop
    · exact Or.inl (hmoves op hop)
    · obtain ⟨i, _, rfl⟩ := List.mem_map.1 hop
      exact Or.inr ⟨i, rfl⟩
  rcases ownedOnce_run _ _ w1 r _ h0 hops hrest with ⟨_, i, hi, _⟩ | ⟨hc, _⟩
  · unfold Holds at hi
    rw [hall i] at hi
    cases hi
  · exact hc

/-- Witness of C1: the referent at 100 is bound to owner 1, moved to owner 2 and then to
owner 3 (whose old referent at 101 is deallocated by the assignment), and the three owners
are destroyed. -/
theorem single_deallocation_witness :
    Unowned freshReferent 100 ∧
    (∀ op ∈ [Op.moveCtor 2 1, Op.moveAssign 3 2], op.isTransfer = true) ∧
    run freshReferent
      (Op.ctor 1 (some 100) ::
        ([Op.moveCtor 2 1, Op.moveAssign 3 2] ++ List.map Op.dtor [3, 2, 1])) =
      some afterLife ∧
    (∀ i, afterLife.owners i = none) ∧
    afterLife.heap.freed = [101, 100] ∧
    afterLife.heap.deallocCount 100 = freshReferent.heap.deallocCount 100 + 1 := by
  have hfresh : Unowned freshReferent 100 := by
    intro i hi
    unfold Holds freshReferent at hi
    by_cases h3 : i = 3
    · subst h3
      simp at hi
    · simp [Function.update_noteq h3] at hi
  have hdead : ∀ i, afterLife.owners i = none := by
    intro i
    by_cases h1 : i = 1
    · subst h1
      rfl
    · by_cases h2 : i = 2
      · subst h2
        rfl
      · by_cases h3 : i = 3
        · subst h3
          rfl
        · have k1 := fun f v hf => update_none_of_ne f 1 v i h1 hf
          have k2 := fun f v hf => update_none_of_ne f 2 v i h2 hf
          have k3 := fun f v hf => update_none_of_ne f 3 v i h3 hf
          have hf : freshReferent.owners i = none :=
            update_none_of_ne (fun _ => none) 3 _ i h3 rfl
          exact k1 _ _ (k2 _ _ (k3 _ _ (k2 _ _ (k3 _ _ (k1 _ _ (k2 _ _ (k1 _ _ hf)))))))
  exact ⟨hfresh, by decide, rfl, hdead, rfl,
    single_deallocation freshReferent afterLife 1 100 [Op.moveCtor 2 1, Op.moveAssign 3 2]
      [3, 2, 1] hfresh (by decide) rfl hdead⟩

/-- Counterexample to C1 as stated: owner 1 holds the referent at 100, which has not been
deallocated.  The constructor binds the same raw pointer to the new owner 2, no transfer
follows, and owners 2 and 1 are destroyed: every call succeeds, no owner is alive at the
end, and the referent has been deallocated twice. -/
theorem double_bind_deallocates_twice :
    Holds oneOwner 1 100 ∧ oneOwner.heap.deallocCount 100 = 0 ∧
    (∀ op ∈ ([] : List Op), op.isTransfer = true) ∧
    run oneOwner (Op.ctor 2 (some 100) :: ([] ++ List.map Op.dtor [2, 1])) =
      some afterDoubleBind ∧
    (∀ i, afterDoubleBind.owners i = none) ∧
    afterDoubleBind.heap.freed = [100, 100] ∧
    afterDoubleBind.heap.deallocCount 100 = 2 := by
  refine ⟨rfl, rfl, by simp, rfl, ?_, rfl, rfl⟩
  intro i
  by_cases h1 : i = 1
  · subst h1
    rfl
  · by_cases h2 : i = 2
    · subst h2
      rfl
    · have k1 := fun f v hf => update_none_of_ne f 1 v i h1 hf
      have k2 := fun f v hf => update_none_of_ne f 2 v i h2 hf
      have hf : oneOwner.owners i = none :=
        update_none_of_ne (fun _ => none) 1 _ i h1 rfl
      exact k1 _ _ (k2 _ _ (k2 _ _ hf))

/-- C8 (release, P6), as amended: for an owner `a` that is alive and holds `p` (possibly
empty), `a.release()` succeeds and returns `p`, afterwards `a.get()` is empty and the heap is
as before; destroying `a` right after deallocates nothing; and when no other owner holds the
referent of `p`, no later sequence of calls in which that raw pointer is not passed to a
constructor or to `reset` again deallocates it. -/
theorem release_transfers {T : Type} (w : World T) (a : Nat) (p : Ptr)
    (ha : w.owners a = some { m_ptr := p }) :
    ∃ w1, UniquePtr.release w a = some (p, w1) ∧
      UniquePtr.get w1 a = some none ∧ w1.heap = w.heap ∧
      (∃ w2, UniquePtr.dtor w1 a = some w2 ∧ w2.heap = w.heap) ∧
      ∀ r, p = some r → (∀ j, j ≠ a → ¬ Holds w j r) →
        ∀ ops w3, (∀ op ∈ ops, op.supplies r = false) → run w1 ops = some w3 →
          w3.heap.deallocCount r = w.heap.deallocCount r := by
  have hget : (w.setPtr a none).owners a = some { m_ptr := none } := by
    simp [World.setPtr]
  refine ⟨w.setPtr a none, UniquePtr.release_eq w a p ha, ?_, rfl, ?_, ?_⟩
  · simp [UniquePtr.get, hget]
  · exact ⟨_, UniquePtr.dtor_eq (w.setPtr a none) a none hget, rfl⟩
  · intro r _ hothers ops w3 hops hrun
    have hun : Unowned (w.setPtr a none) r := by
      intro j hj
      rw [holds_setPtr] at hj
      rcases hj with ⟨_, hj⟩ | ⟨hja, hj⟩
      · cases hj
      · exact hothers j hja hj
    exact (unowned_run ops (w.setPtr a none) w3 r hun hops hrun).2

/-- Witness of C8 on the one-owner state. -/
theorem release_transfers_witness :
    oneOwner.owners 1 = some { m_ptr := some 100 } ∧
    ∃ w1, UniquePtr.release oneOwner 1 = some (some 100, w1) ∧
      UniquePtr.get w1 1 = some none ∧ w1.heap = oneOwner.heap ∧
      (∃ w2, UniquePtr.dtor w1 1 = some w2 ∧ w2.heap = oneOwner.heap) ∧
      ∀ r, some 100 = some r → (∀ j, j ≠ 1 → ¬ Holds oneOwner j r) →
        ∀ ops w3, (∀ op ∈ ops, op.supplies r = false) → run w1 ops = some w3 →
          w3.heap.deallocCount r = oneOwner.heap.deallocCount r :=
  ⟨by decide, release_transfers oneOwner 1 (some 100) (by decide)⟩

/-- Counterexample to C8 as stated: owner 1 holds the referent at 100; after
`p = a.release()` the two later calls `a.reset(p)` and the destruction of `a` deallocate
`p`. -/
theorem release_then_reset_deallocates :
    oneOwner.heap.deallocCount 100 = 0 ∧
    UniquePtr.release oneOwner 1 = some (some 100, oneOwner.setPtr 1 none) ∧
    (run (oneOwner.setPtr 1 none) [Op.reset 1 (some 100), Op.dtor 1]).map
      (fun w => (w.heap.freed, w.heap.deallocCount 100)) = some ([100], 1) :=
  ⟨rfl, rfl, rfl⟩

/-- C10 (no aliasing, I1), as amended: from a state in which no two owners that are alive
hold the same referent, every call of the interface that succeeds leads to such a state
again, provided that a raw pointer passed to the constructor or to `reset` is not held by
an owner other than the one the call is made on. -/
theorem noAlias_preserved {T : Type} (w w1 : World T) (op : Op) (h : NoAlias w)
    (hs : step w op = some w1)
    (hraw : ∀ r j, op.supplies r = true → Holds w j r → j = op.target) : NoAlias w1 :=
  noAlias_step_aux w w1 op h hs hraw

/-- Witness of C10: in the two-owner state a third owner is constructed from the raw pointer
102, which no owner holds. -/
theorem noAlias_preserved_witness :
    NoAlias twoOwners ∧
    step twoOwners (Op.ctor 3 (some 102)) = some (twoOwners.setPtr 3 (some 102)) ∧
    (∀ r j, (Op.ctor 3 (some 102)).supplies r = true → Holds twoOwners j r →
      j = (Op.ctor 3 (some 102)).target) ∧
    NoAlias (twoOwners.setPtr 3 (some 102)) := by
  have hraw : ∀ r j, (Op.ctor 3 (some 102)).supplies r = true → Holds twoOwners j r →
      j = (Op.ctor 3 (some 102)).target := by
    intro r j hr hj
    simp only [Op.supplies, decide_eq_true_eq, Option.some.injEq] at hr
    rw [holds_twoOwners] at hj
    omega
  exact ⟨noAlias_twoOwners, rfl, hraw,
    noAlias_preserved twoOwners _ (Op.ctor 3 (some 102)) noAlias_twoOwners rfl hraw⟩

/-- Counterexample to C10 as stated: from states without aliasing, constructing owner 2 from
the raw pointer that owner 1 holds, or resetting owner 2 to the raw pointer that owner 1
holds, gives a state in which owners 1 and 2 hold the same referent. -/
theorem ctor_and_reset_can_alias :
    NoAlias oneOwner ∧
    step oneOwner (Op.ctor 2 (some 100)) = some (oneOwner.setPtr 2 (some 100)) ∧
    ¬ NoAlias (oneOwner.setPtr 2 (some 100)) ∧
    NoAlias twoOwners ∧
    step twoOwners (Op.reset 2 (some 100)) =
      some (World.setPtr { twoOwners with heap := twoOwners.heap.delete (some 101) } 2
        (some 100)) ∧
    ¬ NoAlias (World.setPtr { twoOwners with heap := twoOwners.heap.delete (some 101) } 2
        (some 100)) := by
  refine ⟨noAlias_oneOwner, rfl, ?_, noAlias_twoOwners, rfl, ?_⟩
  · intro h
    have := h 1 2 100 rfl rfl
    omega
  · intro h
    have := h 1 2 100 rfl rfl
    omega

theorem step_heap_effect {T : Type} (w w1 : World T) (op : Op) (hs : step w op = some w1) :
    w1.heap = w.heap ∨
      ∃ q, w.owners op.target = some { m_ptr := q } ∧ w1.heap = w.heap.delete q := by
  cases op with
  | ctor this p =>
    obtain ⟨_, rfl⟩ := ctor_effect w w1 this p hs
    exact Or.inl rfl
  | dtor this =>
    obtain ⟨q, ht, rfl⟩ := dtor_effect w w1 this hs
    exact Or.inr ⟨q, ht, rfl⟩
  | moveCtor this other =>
    obtain ⟨p, _, _, rfl⟩ := moveCtor_effect w w1 this other hs
    exact Or.inl rfl
  | moveAssign this other =>
    obtain ⟨q, p, ht, _, ⟨_, rfl⟩ | ⟨_, rfl⟩⟩ := moveAssign_effect w w1 this other hs
    · exact Or.inl rfl
    · exact Or.inr ⟨q, ht, rfl⟩
  | deref this =>
    simp only [step, Option.map_eq_some'] at hs
    obtain ⟨_, _, rfl⟩ := hs
    exact Or.inl rfl
  | arrow this =>
    simp only [step, Option.map_eq_some'] at hs
    obtain ⟨_, _, rfl⟩ := hs
    exact Or.inl rfl
  | get this =>
    simp only [step, Option.map_eq_some'] at hs
    obtain ⟨_, _, rfl⟩ := hs
    exact Or.inl rfl
  | reset this p =>
    obtain ⟨q, ht, ⟨_, rfl⟩ | ⟨_, rfl⟩⟩ := reset_effect w w1 this p hs
    · exact Or.inl rfl
    · exact Or.inr ⟨q, ht, rfl⟩
  | release this =>
    simp only [step, Option.map_eq_some'] at hs
    obtain ⟨res, hres, rfl⟩ := hs
    obtain ⟨q, _, rfl⟩ := release_effect w this res hres
    exact Or.inl rfl

/-! ## Frame properties and observers -/

/-- C11 (no allocation, only own deallocation): for every call of the interface that
succeeds, every object that is allocated afterwards was allocated before with the same
value (nothing is allocated), the deallocation log only grows, and every referent that the
call deallocates (a new log entry, or a cell that changed) was held, immediately before the
call, by the owner the call is made on (the destination for transfer-assign). -/
theorem only_own_deallocation {T : Type} (w w1 : World T) (op : Op)
    (hs : step w op = some w1) :
    (∀ x v, w1.heap.cells x = some v → w.heap.cells x = some v) ∧
    (∃ l, w1.heap.freed = w.heap.freed ++ l ∧ ∀ r ∈ l, Holds w op.target r) ∧
    (∀ x, w1.heap.cells x ≠ w.heap.cells x → Holds w op.target x) ∧
    (∀ x, w1.heap.deallocCount x ≠ w.heap.deallocCount x → Holds w op.target x) := by
  rcases step_heap_effect w w1 op hs with hh | ⟨q, ht, hh⟩
  · rw [hh]
    exact ⟨fun _ _ h => h, ⟨[], by simp, by simp⟩, fun _ h => (h rfl).elim,
      fun _ h => (h rfl).elim⟩
  · rw [hh]
    obtain ⟨hlog, hcount, hcells⟩ := Heap.delete_deallocatesOnly w.heap q
    have hold : ∀ x, q = some x → Holds w op.target x :=
      fun x hx => (holds_iff_ptr w op.target q x ht).2 hx
    refine ⟨?_, ⟨q.toList, hlog, ?_⟩, ?_, ?_⟩
    · intro x v hv
      rw [hcells x] at hv
      by_cases hx : q = some x
      · simp [hx] at hv
      · simpa [hx] using hv
    · intro r hr
      exact hold r (by simpa [Option.mem_toList] using hr)
    · intro x hx
      by_cases hq : q = some x
      · exact hold x hq
      · exact (hx (by rw [hcells x, if_neg hq])).elim
    · intro x hx
      by_cases hq : q = some x
      · exact hold x hq
      · exact (hx (by rw [hcount x, if_neg hq]; rfl)).elim

/-- Witness of C11: in the two-owner state owner 1 is move-assigned from owner 2, which
deallocates the referent at 100 that owner 1 held. -/
theorem only_own_deallocation_witness :
    step twoOwners (Op.moveAssign 1 2) =
      some ((World.setPtr { twoOwners with heap := twoOwners.heap.delete (some 100) } 1
        (some 101)).setPtr 2 none) ∧
    (twoOwners.heap.delete (some 100)).freed = [100] ∧
    Holds twoOwners 1 100 ∧
    ((∀ x v, (twoOwners.heap.delete (some 100)).cells x = some v →
        twoOwners.heap.cells x = some v) ∧
     (∃ l, (twoOwners.heap.delete (some 100)).freed = twoOwners.heap.freed ++ l ∧
        ∀ r ∈ l, Holds twoOwners (Op.moveAssign 1 2).target r) ∧
     (∀ x, (twoOwners.heap.delete (some 100)).cells x ≠ twoOwners.heap.cells x →
        Holds twoOwners (Op.moveAssign 1 2).target x) ∧
     (∀ x, (twoOwners.heap.delete (some 100)).deallocCount x ≠
        twoOwners.heap.deallocCount x → Holds twoOwners (Op.moveAssign 1 2).target x)) :=
  ⟨rfl, rfl, rfl, only_own_deallocation twoOwners _ (Op.moveAssign 1 2) rfl⟩

/-- C12 (get is a pure observer): for an owner `a` that is alive and whose slot holds `p`
(possibly empty), `a.get()` returns `p`; the call leaves the whole state, so the slot of `a`,
every other owner and the heap, as it was; and a second call right after returns the same
value. -/
theorem get_pure {T : Type} (w : World T) (a : Nat) (p : Ptr)
    (ha : w.owners a = some { m_ptr := p }) :
    UniquePtr.get w a = some p ∧
    ∃ w1, step w (Op.get a) = some w1 ∧ w1.owners = w.owners ∧ w1.heap = w.heap ∧
      UniquePtr.get w1 a = UniquePtr.get w a := by
  have hg : UniquePtr.get w a = some p := by simp [UniquePtr.get, ha]
  exact ⟨hg, w, by simp [step, hg], rfl, rfl, rfl⟩

/-- Witness of C12 on the state of `main`: `ptr1.get()` is empty after the move and
`ptr2.get()` is the address of `Foo(42)`. -/
theorem get_pure_witness :
    mainWorld.owners 1 = some { m_ptr := none } ∧
    mainWorld.owners 2 = some { m_ptr := some 100 } ∧
    (UniquePtr.get mainWorld 1 = some none ∧
      ∃ w1, step mainWorld (Op.get 1) = some w1 ∧ w1.owners = mainWorld.owners ∧
        w1.heap = mainWorld.heap ∧ UniquePtr.get w1 1 = UniquePtr.get mainWorld 1) ∧
    (UniquePtr.get mainWorld 2 = some (some 100) ∧
      ∃ w1, step mainWorld (Op.get 2) = some w1 ∧ w1.owners = mainWorld.owners ∧
        w1.heap = mainWorld.heap ∧ UniquePtr.get w1 2 = UniquePtr.get mainWorld 2) :=
  ⟨by decide, by decide, get_pure mainWorld 1 none (by decide),
    get_pure mainWorld 2 (some 100) (by decide)⟩

/-- C13 (dereference and member access): for an owner `a` that is alive, whose slot holds the
address `r` and whose referent is allocated with value `v`, dereference succeeds and yields
`v`, the object stored at `a.get()`; member access returns the same raw pointer as
`a.get()`; and neither call changes a slot or the heap. -/
theorem deref_arrow_nonempty {T : Type} (w : World T) (a r : Nat) (v : T)
    (ha : w.owners a = some { m_ptr := some r }) (hv : w.heap.cells r = some v) :
    UniquePtr.get w a = some (some r) ∧
    UniquePtr.deref w a = some v ∧
    UniquePtr.arrow w a = UniquePtr.get w a ∧
    step w (Op.deref a) = some w ∧ step w (Op.arrow a) = some w := by
  have hd : UniquePtr.deref w a = some v := by simp [UniquePtr.deref, ha, hv]
  have hr : UniquePtr.arrow w a = some (some r) := by simp [UniquePtr.arrow, ha]
  have hg : UniquePtr.get w a = some (some r) := by simp [UniquePtr.get, ha]
  exact ⟨hg, hd, hr.trans hg.symm, by simp [step, hd], by simp [step, hr]⟩

/-- Witness of C13 on the state of `main`: `ptr3` points to `Foo(43)` before the move
assignment. -/
theorem deref_arrow_nonempty_witness :
    mainWorld.owners 3 = some { m_ptr := some 101 } ∧
    mainWorld.heap.cells 101 = some { x := 43 } ∧
    UniquePtr.get mainWorld 3 = some (some 101) ∧
    UniquePtr.deref mainWorld 3 = some { x := 43 } ∧
    UniquePtr.arrow mainWorld 3 = UniquePtr.get mainWorld 3 ∧
    step mainWorld (Op.deref 3) = some mainWorld ∧
    step mainWorld (Op.arrow 3) = some mainWorld :=
  ⟨by decide, by decide,
    deref_arrow_nonempty mainWorld 3 101 { x := 43 } (by decide) (by decide)⟩

theorem setPtr_comm {T : Type} (w : World T) (i j : Nat) (p q : Ptr) (hne : i ≠ j) :
    (w.setPtr i p).setPtr j q = (w.setPtr j q).setPtr i p := by
  unfold World.setPtr
  simp only [Function.update_comm hne]

theorem setPtr_same {T : Type} (w : World T) (i : Nat) (p : Ptr)
    (h : w.owners i = some { m_ptr := p }) : w.setPtr i p = w := by
  unfold World.setPtr
  rw [← h, Function.update_eq_self]

theorem setPtr_setPtr {T : Type} (w : World T) (i : Nat) (p q : Ptr) :
    (w.setPtr i p).setPtr i q = w.setPtr i q := by
  unfold World.setPtr
  simp only [Function.update_idem]

/-! ## Relations between the operations -/

/-- C15 (transfer-assign is reset-of-release): for distinct owners `dst` and `src` that are
alive and do not hold the same non-empty referent, `dst.transfer-assign(src)` and
`dst.reset(src.release())` both succeed and end in the same state: the same slots for
`dst`, `src` and every other owner, and the same heap and deallocation log. -/
theorem moveAssign_eq_resetOfRelease {T : Type} (w : World T) (dst src : Nat) (q p : Ptr)
    (hd : w.owners dst = some { m_ptr := q }) (hs : w.owners src = some { m_ptr := p })
    (hne : dst ≠ src) (hqp : ∀ r, q = some r → p ≠ some r) :
    ∃ w1, UniquePtr.moveAssign w dst src = some w1 ∧ resetOfRelease w dst src = some w1 ∧
      UniquePtr.get w1 dst = some p ∧ UniquePtr.get w1 src = some none ∧
      DeallocatesOnly w.heap w1.heap q := by
  have hd1 : (w.setPtr src none).owners dst = some { m_ptr := q } := by
    simp [World.setPtr, Function.update_noteq hne, hd]
  refine ⟨_, UniquePtr.moveAssign_eq w dst src q p hd hs hne, ?_, ?_, ?_,
    Heap.delete_deallocatesOnly w.heap q⟩
  · unfold resetOfRelease
    rw [UniquePtr.release_eq w src p hs]
    simp only [Option.some_bind]
    by_cases hqp1 : q = p
    · have hq : q = none := by
        cases q with
        | none => rfl
        | some r => exact (hqp r rfl hqp1.symm).elim
      subst hqp1
      subst hq
      rw [UniquePtr.reset_same _ dst none hd1]
      have e : World.setPtr { w with heap := w.heap.delete none } dst none = w :=
        setPtr_same w dst none hd
      rw [e]
    · rw [UniquePtr.reset_eq _ dst q p hd1 hqp1]
      exact congrArg some
        (setPtr_comm { w with heap := w.heap.delete q } src dst none p (fun e => hne e.symm))
  · simp [UniquePtr.get, World.setPtr, Function.update_noteq hne]
  · simp [UniquePtr.get, World.setPtr]

/-- Witness of C15 on the state of `main`: `ptr3 = std::move(ptr2)` against
`ptr3.reset(ptr2.release())`. -/
theorem moveAssign_eq_resetOfRelease_witness :
    mainWorld.owners 3 = some { m_ptr := some 101 } ∧
    mainWorld.owners 2 = some { m_ptr := some 100 } ∧
    ∃ w1, UniquePtr.moveAssign mainWorld 3 2 = some w1 ∧
      resetOfRelease mainWorld 3 2 = some w1 ∧
      UniquePtr.get w1 3 = some (some 100) ∧ UniquePtr.get w1 2 = some none ∧
      DeallocatesOnly mainWorld.heap w1.heap (some 101) :=
  ⟨by decide, by decide,
    moveAssign_eq_resetOfRelease mainWorld 3 2 (some 101) (some 100) (by decide) (by decide)
      (by decide) (by decide)⟩

/-- C16 (release then reset round-trips): for an owner `a` that is alive and holds `q`
(possibly empty), `a.reset(a.release())` succeeds and ends in the state it started from:
`a.get()` is as before and nothing is deallocated. -/
theorem reset_release_roundtrip {T : Type} (w : World T) (a : Nat) (q : Ptr)
    (ha : w.owners a = some { m_ptr := q }) :
    ∃ w1, resetOfRelease w a a = some w1 ∧ w1 = w ∧
      UniquePtr.get w1 a = UniquePtr.get w a ∧ UniquePtr.get w a = some q ∧
      w1.heap.freed = w.heap.freed ∧ w1.heap.cells = w.heap.cells := by
  have hg : UniquePtr.get w a = some q := by simp [UniquePtr.get, ha]
  have h1 : (w.setPtr a none).owners a = some { m_ptr := none } := by
    simp [World.setPtr]
  refine ⟨w, ?_, rfl, rfl, hg, rfl, rfl⟩
  unfold resetOfRelease
  rw [UniquePtr.release_eq w a q ha]
  simp only [Option.some_bind]
  cases q with
  | none =>
    rw [UniquePtr.reset_same _ a none h1]
    exact congrArg some (setPtr_same w a none ha)
  | some r =>
    rw [UniquePtr.reset_eq _ a none (some r) h1 (by simp)]
    have e : World.setPtr
        { w.setPtr a none with heap := (w.setPtr a none).heap.delete none } a (some r) =
        (w.setPtr a none).setPtr a (some r) := rfl
    rw [e, setPtr_setPtr, setPtr_same w a (some r) ha]

/-- Witness of C16 on the one-owner state. -/
theorem reset_release_roundtrip_witness :
    oneOwner.owners 1 = some { m_ptr := some 100 } ∧
    ∃ w1, resetOfRelease oneOwner 1 1 = some w1 ∧ w1 = oneOwner ∧
      UniquePtr.get w1 1 = UniquePtr.get oneOwner 1 ∧
      UniquePtr.get oneOwner 1 = some (some 100) ∧
      w1.heap.freed = oneOwner.heap.freed ∧ w1.heap.cells = oneOwner.heap.cells :=
  ⟨by decide, reset_release_roundtrip oneOwner 1 (some 100) (by decide)⟩

/-- C17 (the self-transfer guard compares owners, not referents): for two distinct owners
`dst` and `src` that are alive and both hold the same referent `r`, `dst.transfer-assign(src)`
succeeds, deallocates `r` (one new log entry, the cell at `r` is gone), and leaves
`dst.get() == r`, so `dst` holds a referent that is no longer allocated and cannot be
dereferenced, while `src.get()` is empty. -/
theorem moveAssign_aliased_dangles {T : Type} (w : World T) (dst src r : Nat)
    (hd : w.owners dst = some { m_ptr := some r })
    (hs : w.owners src = some { m_ptr := some r }) (hne : dst ≠ src) :
    ∃ w1, UniquePtr.moveAssign w dst src = some w1 ∧
      w1.heap.freed = w.heap.freed ++ [r] ∧ w1.heap.cells r = none ∧
      UniquePtr.get w1 dst = some (some r) ∧ UniquePtr.deref w1 dst = none ∧
      UniquePtr.get w1 src = some none := by
  refine ⟨_, UniquePtr.moveAssign_eq w dst src (some r) (some r) hd hs hne, ?_, ?_, ?_, ?_, ?_⟩
  · simp [World.setPtr, Heap.delete]
  · simp [World.setPtr, Heap.delete]
  · simp [UniquePtr.get, World.setPtr, Function.update_noteq hne]
  · simp [UniquePtr.deref, World.setPtr, Function.update_noteq hne, Heap.delete]
  · simp [UniquePtr.get, World.setPtr]

/-- Witness of C17 on the aliased state: owners 1 and 2 both hold the `Foo(42)` at 100, which
is allocated before `owner 1 = std::move(owner 2)`. -/
theorem moveAssign_aliased_dangles_witness :
    aliased.owners 1 = some { m_ptr := some 100 } ∧
    aliased.owners 2 = some { m_ptr := some 100 } ∧ 1 ≠ 2 ∧
    aliased.heap.cells 100 = some { x := 42 } ∧ aliased.heap.freed = [] ∧
    ∃ w1, UniquePtr.moveAssign aliased 1 2 = some w1 ∧
      w1.heap.freed = aliased.heap.freed ++ [100] ∧ w1.heap.cells 100 = none ∧
      UniquePtr.get w1 1 = some (some 100) ∧ UniquePtr.deref w1 1 = none ∧
      UniquePtr.get w1 2 = some none :=
  ⟨by decide, by decide, by decide, by decide, by decide,
    moveAssign_aliased_dangles aliased 1 2 100 (by decide) (by decide) (by decide)⟩
